import Mathlib

/-!
Verification of the adaptive geometry-quiz inference engine
(`project/backend_service/sql_geometry_manager.py` and its HTTP layer
`project/backend_service/app.py`) against its natural-language specification.

The Python code is shallowly embedded: SQL tables become immutable `Catalog`
lists (rows are modelled as returned in ascending primary-key order, the order
a clustered-PK scan yields), the manager's mutable `state` dict becomes the
`ManagerState` structure, floats become rationals, and each database query that
can raise is given an explicit success flag; a failing query takes the
corresponding `except` branch of the Python code.  Python's dynamic typing at
the one point where it matters (an `int` flowing into `str.lower()`) is
modelled by the `PyVal` sum type.
-/

namespace Geo

/-- Python `needle` is an initial segment of `hay` (character lists). -/
def charsLead : List Char → List Char → Bool
  | [], _ => true
  | _ :: _, [] => false
  | a :: p, b :: s => a == b && charsLead p s

/-- Python substring containment `needle in hay` on character lists. -/
def charsOccur (p : List Char) : List Char → Bool
  | [] => p.isEmpty
  | b :: s => charsLead p (b :: s) || charsOccur p s

/-- Python `str.lower()` on a character list: lowercase every character. -/
def lowerChars (l : List Char) : List Char := l.map Char.toLower

/-- Helper for `pySplit`: walk the characters, `acc` holding the current
word reversed. -/
def wordsAux : List Char → List Char → List (List Char)
  | [], acc => if acc.isEmpty then [] else [acc.reverse]
  | c :: rest, acc =>
      if c.isWhitespace then
        if acc.isEmpty then wordsAux rest []
        else acc.reverse :: wordsAux rest []
      else wordsAux rest (c :: acc)

/-- Python `str.split()`: split on whitespace runs, dropping empty pieces. -/
def pySplit (l : List Char) : List (List Char) := wordsAux l []

/-- First-match lookup in an association list with a default, the embedding of
Python `dict.get(key, default)`. -/
def lookupD : List (Nat × ℚ) → Nat → ℚ → ℚ
  | [], _, d => d
  | (k, v) :: rest, key, d => if k = key then v else lookupD rest key d

/-- Python `dict[key] = v`: replace the first binding of `key` in place, or
append a fresh binding at the end. -/
def setW : List (Nat × ℚ) → Nat → ℚ → List (Nat × ℚ)
  | [], key, v => [(key, v)]
  | (k, w) :: rest, key, v =>
      if k = key then (k, v) :: rest else (k, w) :: setW rest key v

/-- A row of the `Questions` table (`question_id`, `question_text`,
`difficulty_level`, `active`). -/
structure Question where
  id : Nat
  text : String
  difficulty : Int
  active : Bool
deriving DecidableEq, Repr

/-- A row of the `Theorems` table (`theorem_id`, `theorem_text`, `category`,
`active`). -/
structure ThmRow where
  id : Nat
  text : String
  category : Option Nat
  active : Bool
deriving DecidableEq, Repr

/-- A row of the `TheoremQuestionMatrix` link table. -/
structure TQLink where
  theoremId : Nat
  questionId : Nat
deriving DecidableEq, Repr

/-- A row of the `InitialAnswerMultipliers` table
(`question_id`, `triangle_id`, `answer_type`, `multiplier`). -/
structure MultRow where
  questionId : Nat
  triangleId : Nat
  answerType : String
  mult : ℚ
deriving DecidableEq, Repr

/-- The read-only content catalog: the tables created by
`create_tables.create_geometry_tables`, with rows in ascending
primary-key order. -/
structure Catalog where
  questions : List Question
  theorems : List ThmRow
  tqLinks : List TQLink
  multipliers : List MultRow
deriving DecidableEq, Repr

/-- The manager's mutable `self.state` dict: `triangle_weights`,
`theorem_weights`, `asked_questions`, `questions_count`. -/
structure ManagerState where
  triangleWeights : List (Nat × ℚ)
  theoremWeights : List (Nat × ℚ)
  askedQuestions : List Nat
  questionsCount : Nat
deriving DecidableEq, Repr

/-- A Python dict value flowing out of the manager's question-producing
methods: a real question row, a `{"message": ...}` dict, or an
`{"error": ...}` dict.  All three are non-empty dicts, hence truthy in
Python. -/
inductive PyDict where
  | question (id : Nat) (text : String) (difficulty : Int)
  | message (msg : String)
  | error (msg : String)
deriving DecidableEq, Repr

/-- A Python value that may be a string or an integer; `str.lower()` raises
`AttributeError` on the integer case. -/
inductive PyVal where
  | str (s : String)
  | int (n : Int)
deriving DecidableEq, Repr

/-- A `SqlGeometryManager` instance: `self.state`, `self._pending_question`,
`self._resume_requested`, plus the feedback value held by the `Session`
object.  The `sessionFeedback` field is
Modelled from the spec: `session.py` is imported but absent from the sources;
per the spec the session record stores the feedback value and never touches
the belief state. -/
structure Manager where
  state : ManagerState
  pendingQuestion : Option PyDict
  resumeRequested : Bool
  sessionFeedback : Option Int
deriving DecidableEq, Repr

/-- `_initialize_state`: uniform triangle weights over categories 0..3 and
floor weight 1/100 for every active theorem (queried from `Theorems`; a
failing query is caught and yields the empty dict). -/
def initialState (cat : Catalog) (theoremQueryOk : Bool) : ManagerState :=
  { triangleWeights := [(0, 1/4), (1, 1/4), (2, 1/4), (3, 1/4)]
    theoremWeights :=
      if theoremQueryOk then
        (cat.theorems.filter (fun t => t.active)).map (fun t => (t.id, 1/100))
      else []
    askedQuestions := []
    questionsCount := 0 }

/-- `SqlGeometryManager.__init__`. -/
def initManager (cat : Catalog) (theoremQueryOk : Bool) : Manager :=
  { state := initialState cat theoremQueryOk
    pendingQuestion := none
    resumeRequested := false
    sessionFeedback := none }

/-- The rows of the join in `_update_weights_based_on_answer`:
`SELECT tq.theorem_id, t.theorem_text FROM TheoremQuestionMatrix tq JOIN
Theorems t ON tq.theorem_id = t.theorem_id WHERE tq.question_id = ? AND
t.active = 1` (theorem_id is a primary key, so each link matches at most one
theorem row). -/
def relatedTheoremRows (cat : Catalog) (qid : Nat) : List (Nat × String) :=
  cat.tqLinks.filterMap (fun l =>
    if l.questionId = qid then
      (cat.theorems.find? (fun t => t.id == l.theoremId && t.active)).map
        (fun t => (t.id, t.text))
    else none)

/-- The keyword test of `_update_weights_based_on_answer`: lowercase the
theorem text, split into words, keep the first three as keyword candidates,
and report whether any candidate of length > 2 occurs as a substring of the
(lowercased) answer. -/
def kwMentioned (answerLower : List Char) (theoremText : String) : Bool :=
  let kws := (pySplit (lowerChars theoremText.toList)).take 3
  kws.any (fun k => decide (k.length > 2) && charsOccur (lowerChars k) answerLower)

/-- One boost: `state[tid] = min(state.get(tid, 0.01) * 1.5, 1.0)`. -/
def boostTheorem (tw : List (Nat × ℚ)) (tid : Nat) : List (Nat × ℚ) :=
  setW tw tid (min (lookupD tw tid (1/100) * (3/2)) 1)

/-- The `for theorem in related_theorems` loop of
`_update_weights_based_on_answer`. -/
def updateLoop (answerLower : List Char) :
    List (Nat × String) → List (Nat × ℚ) → List (Nat × ℚ)
  | [], tw => tw
  | (tid, text) :: rest, tw =>
      updateLoop answerLower rest
        (if kwMentioned answerLower text then boostTheorem tw tid else tw)

/-- `_update_weights_based_on_answer`.  A failing theorems query, or an
integer answer (whose `.lower()` raises `AttributeError` before the loop
runs), takes the `except` branch: the error is logged and the state is
returned unchanged. -/
def updateWeightsBasedOnAnswer (st : ManagerState) (cat : Catalog)
    (ans : PyVal) (qid : Nat) (queryOk : Bool) : ManagerState :=
  if !queryOk then st
  else
    match ans with
    | .int _ => st
    | .str s =>
        { st with
          theoremWeights :=
            updateLoop (lowerChars s.toList) (relatedTheoremRows cat qid)
              st.theoremWeights }

/-- The id list interpolated into `NOT IN (...)` by `_select_next_question`:
the asked questions, or the literal `0` when the history is empty. -/
def excludedIds (st : ManagerState) : List Nat :=
  if st.askedQuestions = [] then [0] else st.askedQuestions

/-- The candidate rows of `_select_next_question`: active questions whose id
is not in the interpolated exclusion list. -/
def availableQuestions (st : ManagerState) (cat : Catalog) : List Question :=
  cat.questions.filter
    (fun q => q.active && !((excludedIds st).contains q.id))

/-- The per-candidate query `SELECT theorem_id FROM TheoremQuestionMatrix
WHERE question_id = ?` (no active filter, no join). -/
def linkedTheoremIds (cat : Catalog) (qid : Nat) : List Nat :=
  cat.tqLinks.filterMap (fun l =>
    if l.questionId = qid then some l.theoremId else none)

/-- The score accumulated for one candidate: start from its difficulty level
and add `theorem_weight * 10` for every linked theorem, the weight looked up
with default 1/100. -/
def questionScore (st : ManagerState) (cat : Catalog) (q : Question) : ℚ :=
  (linkedTheoremIds cat q.id).foldl
    (fun s tid => s + lookupD st.theoremWeights tid (1/100) * 10)
    (q.difficulty : ℚ)

/-- One iteration of the best-candidate loop: replace the current best only
on a strictly greater score (`if score > best_score`). -/
def selStep (st : ManagerState) (cat : Catalog)
    (acc : Option Question × ℚ) (q : Question) : Option Question × ℚ :=
  if questionScore st cat q > acc.2 then (some q, questionScore st cat q) else acc

/-- `_select_next_question`.  A failing query takes the `except` branch and
returns an error dict; an empty candidate list returns the
"No more questions available" message dict; otherwise the loop starting from
`(None, -1)` picks the first candidate attaining the maximal score, with the
`available_questions[0]` fallback when no score exceeded `-1`. -/
def selectNextQuestion (st : ManagerState) (cat : Catalog)
    (queryOk : Bool) : PyDict :=
  if !queryOk then .error "Selection error: database error"
  else
    match availableQuestions st cat with
    | [] => .message "No more questions available"
    | q0 :: rest =>
        match ((q0 :: rest).foldl (selStep st cat) (none, -1)).1 with
        | some b => .question b.id b.text b.difficulty
        | none => .question q0.id q0.text q0.difficulty

/-- `process_answer(user_answer, question_id)`.  The answer is first inserted
into `inputDuring` (a failure there is caught and returned as an error dict
with the state untouched); then the weight update and next-question selection
run.  The Python guard `if next_question:` is true for every dict
`_select_next_question` can return, so `_pending_question` is assigned before
`next_question['question_id']` is read; on a message/error dict that read
raises `KeyError('question_id')`, caught by the outer `except`, which returns
a "Processing error" dict — with the pending-question assignment already
performed. -/
def processAnswer (m : Manager) (cat : Catalog) (ans : PyVal) (qid : Nat)
    (insertOk updateQueryOk selectQueryOk : Bool) : Manager × PyDict :=
  if !insertOk then (m, .error "Processing error: insert failed")
  else
    let st1 := updateWeightsBasedOnAnswer m.state cat ans qid updateQueryOk
    match selectNextQuestion st1 cat selectQueryOk with
    | .question i t d =>
        ({ m with
            state := { st1 with
              askedQuestions := st1.askedQuestions ++ [i]
              questionsCount := st1.questionsCount + 1 }
            pendingQuestion := some (.question i t d) },
         .question i t d)
    | .message s =>
        ({ m with state := st1, pendingQuestion := some (.message s) },
         .error "Processing error: question_id key missing")
    | .error s =>
        ({ m with state := st1, pendingQuestion := some (.error s) },
         .error "Processing error: question_id key missing")

/-- `get_first_question`: query the active difficulty-1 questions (no
exclusion of already-asked ids), pick one — `random.choice` modelled by an
arbitrary index `choice`, reduced modulo the list length — append its id to
the history, bump the count and store it as the pending question with the
hard-coded difficulty 1. -/
def getFirstQuestion (m : Manager) (cat : Catalog) (choice : Nat)
    (queryOk : Bool) : Manager × PyDict :=
  if !queryOk then (m, .error "Database error: query failed")
  else
    match cat.questions.filter (fun q => q.active && q.difficulty == 1) with
    | [] => (m, .error "No easy questions found")
    | q0 :: rest =>
        let sel := (q0 :: rest).getD (choice % (q0 :: rest).length) q0
        ({ m with
            state := { m.state with
              askedQuestions := m.state.askedQuestions ++ [sel.id]
              questionsCount := m.state.questionsCount + 1 }
            pendingQuestion := some (.question sel.id sel.text 1) },
         .question sel.id sel.text 1)

/-- An HTTP response of the backend service, reduced to what the claims
observe. -/
inductive ApiResp where
  | ok (payload : PyDict)
  | okAnswer (triangleWeights : List (Nat × ℚ))
  | notFound (payload : PyDict)
  | serverError
deriving DecidableEq, Repr

/-- The methods actually defined on the `SqlGeometryManager` class, in source
order. -/
def sqlManagerMethods : List String :=
  ["__init__", "close", "_initialize_state", "_initialize_theorem_weights",
   "get_first_question", "process_answer", "_update_weights_based_on_answer",
   "_select_next_question", "get_current_question", "reset_session",
   "get_feedback_questions", "get_statistics", "get_session_data"]

/-- The `/api/answer` handler (`app.process_answer`): it reads integer
`question_id` and `answer_id` from the JSON body and calls
`manager.process_answer(question_id, answer_id)` — so the integer
`question_id` is bound to the manager's `user_answer` parameter and
`answer_id` to its `question_id` parameter.  The manager's return value is
discarded and the handler answers 200 with the current triangle weights. -/
def apiAnswer (m : Manager) (cat : Catalog) (questionId answerId : Nat)
    (insertOk updateQueryOk selectQueryOk : Bool) : Manager × ApiResp :=
  let r := processAnswer m cat (.int questionId) answerId
             insertOk updateQueryOk selectQueryOk
  (r.1, .okAnswer r.1.state.triangleWeights)

/-- The `/api/question/next` handler (`app.get_next_question`).  When
`manager._resume_requested` and `manager._pending_question` are both truthy
it re-issues the pending question and clears the flag; otherwise it calls
`manager.get_next_question()` — a method the class does not define, so the
call raises `AttributeError`, caught by the handler's `except`, which answers
500.  The first branch of the `if` below is dead code kept only to mirror the
source's shape. -/
def apiQuestionNext (m : Manager) : Manager × ApiResp :=
  match m.resumeRequested, m.pendingQuestion with
  | true, some q => ({ m with resumeRequested := false }, .ok q)
  | _, _ =>
      if sqlManagerMethods.contains "get_next_question" then
        (m, .ok (.error "unreachable: the method body does not exist"))
      else (m, .serverError)

/-- The outcome of `/api/session/end`. -/
inductive EndResult where
  | resume
  | saved
deriving DecidableEq, Repr

/-- The `/api/session/end` handler (`app.end_session`), restricted to the
feedback value.  `session.set_feedback` stores the value on the session
record (see `Manager.sessionFeedback`).  On `feedback_id == 7` the handler
sets `_resume_requested`, answers "resume", does not persist the session and
keeps the manager in the `geometry_managers` dict; otherwise it persists the
session (persistence modelled as succeeding), removes the manager from memory
and answers "saved".  The result triple is (manager still in memory,
session persisted, response action). -/
def endSessionHandler (m : Manager) (feedbackId : Option Int) :
    Option Manager × Bool × EndResult :=
  let m1 := match feedbackId with
            | some f => { m with sessionFeedback := some f }
            | none => m
  if feedbackId = some 7 then
    (some { m1 with resumeRequested := true }, false, .resume)
  else
    (none, true, .saved)

/-- The strict-then-id comparison of the recommender: `a` may precede `b`
when `a` has the larger weight, or equal weight and the smaller-or-equal
theorem id. -/
def recBefore (a b : Nat × ℚ) : Bool :=
  decide (b.2 < a.2) || (decide (a.2 = b.2) && decide (a.1 ≤ b.1))

/-- Insert into a list sorted by `recBefore`. -/
def insSorted (p : Nat × ℚ) : List (Nat × ℚ) → List (Nat × ℚ)
  | [] => [p]
  | q :: rest => if recBefore p q then p :: q :: rest else q :: insSorted p rest

/-- Insertion sort by descending weight, ties by ascending theorem id. -/
def sortRec : List (Nat × ℚ) → List (Nat × ℚ)
  | [] => []
  | p :: rest => insSorted p (sortRec rest)

/-- First entry attaining the maximal weight (strict-greater fold). -/
def maxByWeight : List (Nat × ℚ) → Option (Nat × ℚ)
  | [] => none
  | p :: rest =>
      some (rest.foldl (fun best q => if q.2 > best.2 then q else best) p)

/-- Modelled from the spec: the Theorem Recommender
(`Geometry_Manager.get_relevant_theorems`) is imported from
`pages/Question_Page/Geometry_Manager.py`, which is not among the sources —
only its callers are.  Following spec §4.4: theorems whose weight is at or
above `threshold` are returned, ordered descending by weight with ties broken
by ascending theorem id; when none qualifies, the single highest-weighted
theorem is returned regardless of the threshold. -/
def recommend (weights : List (Nat × ℚ)) (threshold : ℚ) : List (Nat × ℚ) :=
  match sortRec (weights.filter (fun p => decide (threshold ≤ p.2))) with
  | [] =>
      match maxByWeight weights with
      | some p => [p]
      | none => []
  | q :: rest => q :: rest

/-- A concrete one-question, one-theorem catalog used to instantiate
hypotheses of the general theorems. -/
def wcat : Catalog :=
  { questions := [⟨1, "what do you notice about the angles", 1, true⟩]
    theorems := [⟨1, "triangle angle sum equals 180", none, true⟩]
    tqLinks := [⟨1, 1⟩]
    multipliers := [] }

theorem lookupD_setW_self (tw : List (Nat × ℚ)) (k : Nat) (v d : ℚ) :
    lookupD (setW tw k v) k d = v := by
  induction tw with
  | nil => simp [setW, lookupD]
  | cons p rest ih =>
      obtain ⟨a, b⟩ := p
      by_cases h : a = k
      · simp [setW, lookupD, h]
      · simp [setW, lookupD, h, ih]

theorem lookupD_setW_other (tw : List (Nat × ℚ)) (k k' : Nat) (v d : ℚ)
    (h : k ≠ k') : lookupD (setW tw k v) k' d = lookupD tw k' d := by
  induction tw with
  | nil => simp [setW, lookupD, h]
  | cons p rest ih =>
      obtain ⟨a, b⟩ := p
      by_cases ha : a = k
      · subst ha
        simp [setW, lookupD, h]
      · simp [setW, lookupD, ha, ih]

theorem updateLoop_not_mem (a : List Char) (rows : List (Nat × String))
    (tw : List (Nat × ℚ)) (tid : Nat) (d : ℚ)
    (h : ∀ r ∈ rows, r.1 ≠ tid) :
    lookupD (updateLoop a rows tw) tid d = lookupD tw tid d := by
  induction rows generalizing tw with
  | nil => rfl
  | cons r0 rest ih =>
      obtain ⟨t0, x0⟩ := r0
      have ht0 : t0 ≠ tid := h (t0, x0) (List.mem_cons_self _ _)
      have hrest : ∀ r ∈ rest, r.1 ≠ tid := fun r hr => h r (List.mem_cons_of_mem _ hr)
      show lookupD (updateLoop a rest _) tid d = _
      rw [ih _ hrest]
      by_cases hm : kwMentioned a x0
      · simp only [hm, if_pos]
        exact lookupD_setW_other _ _ _ _ _ ht0
      · simp [hm]

theorem updateLoop_boosts (a : List Char) (rows : List (Nat × String))
    (tw : List (Nat × ℚ))
    (hdist : rows.Pairwise (fun r r' => r.1 ≠ r'.1)) :
    ∀ r ∈ rows,
      lookupD (updateLoop a rows tw) r.1 (1/100) =
        if kwMentioned a r.2 then
          min (lookupD tw r.1 (1/100) * (3/2)) 1
        else lookupD tw r.1 (1/100) := by
  induction rows generalizing tw with
  | nil => intro r hr; cases hr
  | cons r0 rest ih =>
      obtain ⟨t0, x0⟩ := r0
      rw [List.pairwise_cons] at hdist
      obtain ⟨hhead, hrest⟩ := hdist
      intro r hr
      rcases List.mem_cons.mp hr with hr0 | hrmem
      · subst hr0
        show lookupD (updateLoop a rest _) t0 (1/100) = _
        have hne : ∀ r' ∈ rest, r'.1 ≠ t0 := fun r' h' => (hhead r' h').symm
        rw [updateLoop_not_mem a rest _ t0 (1/100) hne]
        by_cases hm : kwMentioned a x0
        · simp only [hm, if_pos]
          exact lookupD_setW_self _ _ _ _
        · simp [hm]
      · have hne : t0 ≠ r.1 := hhead r hrmem
        show lookupD (updateLoop a rest _) r.1 (1/100) = _
        rw [ih _ hrest r hrmem]
        by_cases hm : kwMentioned a x0
        · simp only [hm, if_pos, boostTheorem]
          rw [lookupD_setW_other _ _ _ _ _ hne]
        · simp [hm]

/-- C2: for a free-text answer processed against a question, every active
theorem linked to the question whose keyword candidates — the first three
words of its text, ignoring words of length ≤ 2 — occur case-insensitively as
a substring of the answer has its weight multiplied by 3/2 and clamped at 1
(so a theorem at the floor weight 1/100 moves to exactly 3/200 = 0.015),
while theorems with no keyword match, and theorems not linked to the
question, keep their weight unchanged.  The keyword rule is the definition
`kwMentioned`, transcribed from the source; the distinctness hypothesis is
the primary key of `TheoremQuestionMatrix`. -/
theorem free_text_update_boosts_matched_theorems (st : ManagerState)
    (cat : Catalog) (ans : String) (qid : Nat)
    (hdist : (relatedTheoremRows cat qid).Pairwise (fun r r' => r.1 ≠ r'.1)) :
    (∀ r ∈ relatedTheoremRows cat qid,
        lookupD (updateWeightsBasedOnAnswer st cat (.str ans) qid
            true).theoremWeights r.1 (1/100) =
          if kwMentioned (lowerChars ans.toList) r.2 then
            min (lookupD st.theoremWeights r.1 (1/100) * (3/2)) 1
          else lookupD st.theoremWeights r.1 (1/100)) ∧
    (∀ r ∈ relatedTheoremRows cat qid,
        kwMentioned (lowerChars ans.toList) r.2 = true →
        lookupD st.theoremWeights r.1 (1/100) = 1/100 →
        lookupD (updateWeightsBasedOnAnswer st cat (.str ans) qid
            true).theoremWeights r.1 (1/100) = 3/200) ∧
    (∀ tid d, (∀ r ∈ relatedTheoremRows cat qid, r.1 ≠ tid) →
        lookupD (updateWeightsBasedOnAnswer st cat (.str ans) qid
            true).theoremWeights tid d = lookupD st.theoremWeights tid d) := by
  have hmain := updateLoop_boosts (lowerChars ans.toList)
    (relatedTheoremRows cat qid) st.theoremWeights hdist
  have hst : (updateWeightsBasedOnAnswer st cat (.str ans) qid
        true).theoremWeights
      = updateLoop (lowerChars ans.toList) (relatedTheoremRows cat qid)
          st.theoremWeights := rfl
  refine ⟨fun r hr => ?_, fun r hr hm hw => ?_, fun tid d hne => ?_⟩
  · rw [hst]
    exact hmain r hr
  · have h1 := hmain r hr
    rw [hm] at h1
    simp only [if_true] at h1
    rw [hst, h1, hw, min_eq_left (by norm_num : (1:ℚ)/100 * (3/2) ≤ 1)]
    norm_num
  · rw [hst]
    exact updateLoop_not_mem (lowerChars ans.toList) (relatedTheoremRows cat qid)
      st.theoremWeights tid d hne

/-- Witness for C2 at the concrete catalog `wcat`: the answer "i think the
triangle angle sum matters" matches the keyword "triangle" of theorem 1,
whose floor weight 1/100 becomes exactly 3/200. -/
theorem free_text_update_boosts_matched_theorems_witness :
    lookupD (updateWeightsBasedOnAnswer (initialState wcat true) wcat
        (.str "I think the Triangle angle sum matters") 1
        true).theoremWeights 1 (1/100) = 3/200 := by
  have h := free_text_update_boosts_matched_theorems (initialState wcat true)
    wcat "I think the Triangle angle sum matters" 1 (by decide)
  exact h.2.1 (1, "triangle angle sum equals 180") (by decide) (by decide) rfl

theorem updateWeights_query_failure (st : ManagerState) (cat : Catalog)
    (ans : PyVal) (qid : Nat) :
    updateWeightsBasedOnAnswer st cat ans qid false = st := rfl

theorem updateWeights_int_answer (st : ManagerState) (cat : Catalog)
    (n : Int) (qid : Nat) (ok : Bool) :
    updateWeightsBasedOnAnswer st cat (.int n) qid ok = st := by
  cases ok <;> rfl

theorem updateWeights_triangle (st : ManagerState) (cat : Catalog)
    (ans : PyVal) (qid : Nat) (ok : Bool) :
    (updateWeightsBasedOnAnswer st cat ans qid ok).triangleWeights
      = st.triangleWeights := by
  cases ok <;> cases ans <;> rfl

theorem updateWeights_asked (st : ManagerState) (cat : Catalog)
    (ans : PyVal) (qid : Nat) (ok : Bool) :
    (updateWeightsBasedOnAnswer st cat ans qid ok).askedQuestions
      = st.askedQuestions := by
  cases ok <;> cases ans <;> rfl

theorem updateWeights_count (st : ManagerState) (cat : Catalog)
    (ans : PyVal) (qid : Nat) (ok : Bool) :
    (updateWeightsBasedOnAnswer st cat ans qid ok).questionsCount
      = st.questionsCount := by
  cases ok <;> cases ans <;> rfl

theorem processAnswer_triangle (m : Manager) (cat : Catalog) (ans : PyVal)
    (qid : Nat) (iOk uOk sOk : Bool) :
    (processAnswer m cat ans qid iOk uOk sOk).1.state.triangleWeights
      = m.state.triangleWeights := by
  cases iOk
  · rfl
  · cases hsel : selectNextQuestion
        (updateWeightsBasedOnAnswer m.state cat ans qid uOk) cat sOk <;>
      simp [processAnswer, hsel, updateWeights_triangle]

theorem processAnswer_theorem_weights (m : Manager) (cat : Catalog)
    (ans : PyVal) (qid : Nat) (iOk uOk sOk : Bool) :
    (processAnswer m cat ans qid iOk uOk sOk).1.state.theoremWeights
      = if iOk then
          (updateWeightsBasedOnAnswer m.state cat ans qid uOk).theoremWeights
        else m.state.theoremWeights := by
  cases iOk
  · rfl
  · cases hsel : selectNextQuestion
        (updateWeightsBasedOnAnswer m.state cat ans qid uOk) cat sOk <;>
      simp [processAnswer, hsel]

/-- C4: the weight-update operation never propagates a failure to its caller
and is all-or-nothing.  The embedding of `_update_weights_based_on_answer` is
total (every `except` branch of the source returns normally), a failing
theorems lookup leaves the whole state unchanged, a type error on the answer
(`AttributeError` raised before the loop) leaves the whole state unchanged,
the operation never touches category weights, the asked history or the
question count, and a failing answer insert makes `process_answer` return an
error dict with the manager — pending question included — exactly as it
was. -/
theorem weight_update_never_fails_and_is_all_or_nothing (st : ManagerState)
    (cat : Catalog) (ans : PyVal) (qid : Nat) (ok : Bool) (n : Int)
    (m : Manager) (uOk sOk : Bool) :
    updateWeightsBasedOnAnswer st cat ans qid false = st ∧
    updateWeightsBasedOnAnswer st cat (.int n) qid ok = st ∧
    (updateWeightsBasedOnAnswer st cat ans qid ok).triangleWeights
      = st.triangleWeights ∧
    (updateWeightsBasedOnAnswer st cat ans qid ok).askedQuestions
      = st.askedQuestions ∧
    (updateWeightsBasedOnAnswer st cat ans qid ok).questionsCount
      = st.questionsCount ∧
    processAnswer m cat ans qid false uOk sOk
      = (m, .error "Processing error: insert failed") :=
  ⟨updateWeights_query_failure st cat ans qid,
   updateWeights_int_answer st cat n qid ok,
   updateWeights_triangle st cat ans qid ok,
   updateWeights_asked st cat ans qid ok,
   updateWeights_count st cat ans qid ok,
   rfl⟩

/-- C5: the `/api/answer` handler calls
`manager.process_answer(question_id, answer_id)` although the manager's
signature is `process_answer(user_answer, question_id)`, so the integer
`question_id` arrives as the answer text (see the definition of
`apiAnswer`); `.lower()` on that integer raises inside the keyword update,
which aborts with the state untouched — hence no theorem weight and no
triangle weight is ever modified by this endpoint, for any manager, catalog,
ids, and any database outcome. -/
theorem api_answer_swapped_args_never_update_weights (m : Manager)
    (cat : Catalog) (questionId answerId : Nat) (iOk uOk sOk : Bool) :
    (apiAnswer m cat questionId answerId iOk uOk sOk).1.state.theoremWeights
      = m.state.theoremWeights ∧
    (apiAnswer m cat questionId answerId iOk uOk sOk).1.state.triangleWeights
      = m.state.triangleWeights := by
  constructor
  · show (processAnswer m cat (.int questionId) answerId
        iOk uOk sOk).1.state.theoremWeights = m.state.theoremWeights
    rw [processAnswer_theorem_weights, updateWeights_int_answer]
    cases iOk <;> rfl
  · exact processAnswer_triangle m cat (.int questionId) answerId iOk uOk sOk

/-- A catalog whose single question has already been asked, with an
`InitialAnswerMultipliers` row for it. -/
def c3cat : Catalog :=
  { questions := [⟨1, "is it right angled", 1, true⟩]
    theorems := []
    tqLinks := []
    multipliers := [⟨1, 0, "1", 2⟩] }

/-- A manager mid-session: question 1 already asked and pending. -/
def c3m : Manager :=
  { state :=
      { triangleWeights := [(0, 1/4), (1, 1/4), (2, 1/4), (3, 1/4)]
        theoremWeights := []
        askedQuestions := [1]
        questionsCount := 1 }
    pendingQuestion := some (.question 1 "is it right angled" 1)
    resumeRequested := false
    sessionFeedback := none }

/-- Counterexample to C3: a structured answer (`answer_id = 1`) to question 1
reaches `process_answer` while the catalog holds the multiplier row
(question 1, triangle 0, answer type "1", multiplier 2); the claim requires
the category-0 weight to become 1/4 × 2, but the code never consults
`InitialAnswerMultipliers` and the weight stays exactly 1/4. -/
theorem structured_answer_multiplier_not_applied :
    (apiAnswer c3m c3cat 1 1 true true true).1.state.triangleWeights
      = c3m.state.triangleWeights ∧
    lookupD (apiAnswer c3m c3cat 1 1 true true true).1.state.triangleWeights
      0 0 = 1/4 ∧
    c3cat.multipliers = [⟨1, 0, "1", 2⟩] ∧
    (1:ℚ)/4 * 2 ≠ 1/4 := by
  refine ⟨rfl, rfl, rfl, by norm_num⟩

/-- C3 amended: answer processing never consults the
`InitialAnswerMultipliers` table and never modifies any category weight —
the triangle weights after `process_answer` (and after the `/api/answer`
handler) are exactly the triangle weights before, so non-negativity of every
category weight is preserved. -/
theorem process_answer_preserves_category_weights (m : Manager)
    (cat : Catalog) (ans : PyVal) (qid : Nat)
    (questionId answerId : Nat) (iOk uOk sOk : Bool) :
    (processAnswer m cat ans qid iOk uOk sOk).1.state.triangleWeights
      = m.state.triangleWeights ∧
    (apiAnswer m cat questionId answerId iOk uOk sOk).1.state.triangleWeights
      = m.state.triangleWeights ∧
    ((∀ p ∈ m.state.triangleWeights, 0 ≤ p.2) →
      ∀ p ∈ (processAnswer m cat ans qid iOk uOk
          sOk).1.state.triangleWeights, 0 ≤ p.2) := by
  refine ⟨processAnswer_triangle m cat ans qid iOk uOk sOk,
    processAnswer_triangle m cat (.int questionId) answerId iOk uOk sOk,
    fun hpos p hp => hpos p ?_⟩
  rw [processAnswer_triangle] at hp
  exact hp

/-- Witness for the amended C3 at a concrete input with a non-negativity
hypothesis to discharge. -/
theorem process_answer_preserves_category_weights_witness :
    ∀ p ∈ (processAnswer c3m c3cat (.str "a right angle") 1 true true
        true).1.state.triangleWeights, 0 ≤ p.2 :=
  (process_answer_preserves_category_weights c3m c3cat (.str "a right angle")
    1 1 1 true true true).2.2 (by norm_num [c3m])

/-- C10 (the code against the claim): with every active question already
asked, `_select_next_question` does return the termination message dict, but
`process_answer` then treats that dict as a question (`if next_question:` is
true for any non-empty dict), stores it as the pending question, and crashes
on the missing `question_id` key — so the caller receives a processing
*error*, not the terminal signal, and the pending question is clobbered with
the message dict instead of being left unchanged.  Asked history, question
count and both weight vectors are unchanged. -/
theorem empty_candidates_error_and_pending_clobbered :
    selectNextQuestion c3m.state c3cat true
      = .message "No more questions available" ∧
    (processAnswer c3m c3cat (.str "a right angle") 1 true true true).2
      = .error "Processing error: question_id key missing" ∧
    (processAnswer c3m c3cat (.str "a right angle") 1 true true
        true).1.pendingQuestion
      = some (.message "No more questions available") ∧
    c3m.pendingQuestion = some (.question 1 "is it right angled" 1) ∧
    (processAnswer c3m c3cat (.str "a right angle") 1 true true
        true).1.pendingQuestion ≠ c3m.pendingQuestion ∧
    (processAnswer c3m c3cat (.str "a right angle") 1 true true
        true).1.state.askedQuestions = c3m.state.askedQuestions ∧
    (processAnswer c3m c3cat (.str "a right angle") 1 true true
        true).1.state.questionsCount = c3m.state.questionsCount ∧
    (processAnswer c3m c3cat (.str "a right angle") 1 true true
        true).1.state.theoremWeights = c3m.state.theoremWeights ∧
    (processAnswer c3m c3cat (.str "a right angle") 1 true true
        true).1.state.triangleWeights = c3m.state.triangleWeights := by
  refine ⟨rfl, rfl, rfl, rfl, by decide, rfl, rfl, rfl, rfl⟩

/-- A catalog with a single active difficulty-1 question, id 5. -/
def c9cat : Catalog :=
  { questions := [⟨5, "name an easy property", 1, true⟩]
    theorems := []
    tqLinks := []
    multipliers := [] }

/-- Counterexample to C9: calling the first-question operation twice from a
fresh session returns question 5 again although its id is already in
`asked_question_ids` — `get_first_question` restricts its candidates to
active difficulty-1 questions only, never excluding the asked history. -/
theorem first_question_can_repeat_asked :
    (getFirstQuestion (getFirstQuestion (initManager c9cat true) c9cat 0
        true).1 c9cat 0 true).2 = .question 5 "name an easy property" 1 ∧
    5 ∈ (getFirstQuestion (initManager c9cat true) c9cat 0
        true).1.state.askedQuestions := by
  refine ⟨rfl, by decide⟩

theorem selFold_mem (st : ManagerState) (cat : Catalog) :
    ∀ (l : List Question) (acc : Option Question × ℚ) (b : Question),
      (l.foldl (selStep st cat) acc).1 = some b → acc.1 = some b ∨ b ∈ l := by
  intro l
  induction l with
  | nil => intro acc b h; exact .inl h
  | cons q t ih =>
      intro acc b h
      rcases ih (selStep st cat acc q) b h with h1 | h1
      · unfold selStep at h1
        by_cases hc : questionScore st cat q > acc.2
        · rw [if_pos hc] at h1
          cases h1
          exact .inr (List.mem_cons_self _ _)
        · rw [if_neg hc] at h1
          exact .inl h1
      · exact .inr (List.mem_cons_of_mem _ h1)

theorem mem_available_not_asked (st : ManagerState) (cat : Catalog)
    (q : Question) (hq : q ∈ availableQuestions st cat) :
    q.id ∉ st.askedQuestions := by
  have hmem := List.mem_filter.mp hq
  have hcon : ((excludedIds st).contains q.id) = false := by
    have := hmem.2
    simp only [Bool.and_eq_true, Bool.not_eq_true'] at this
    exact this.2
  intro habs
  rcases h0 : st.askedQuestions with _ | _
  · rw [h0] at habs; cases habs
  · have : (excludedIds st) = st.askedQuestions := by
      unfold excludedIds
      rw [if_neg (by rw [h0]; exact fun h => List.noConfusion h)]
    rw [this] at hcon
    rw [List.contains_eq_any_beq] at hcon
    have := List.any_eq_false.mp hcon q.id habs
    simp at this

/-- C9 amended: `_select_next_question` (the path used for every question
after the first) never returns an already-asked question, because its
candidate query excludes the asked ids; the first-question operation gives
no such guarantee (see `first_question_can_repeat_asked`). -/
theorem select_next_never_repeats_asked (st : ManagerState) (cat : Catalog)
    (ok : Bool) (qid : Nat) (qt : String) (d : Int)
    (h : selectNextQuestion st cat ok = .question qid qt d) :
    qid ∉ st.askedQuestions := by
  cases ok
  · exact absurd h (by simp [selectNextQuestion])
  · rw [selectNextQuestion] at h
    simp only [Bool.not_true, Bool.false_eq_true, if_false] at h
    split at h
    · exact PyDict.noConfusion h
    next q0 rest hav =>
      split at h
      next b hfold =>
        injection h with h1 h2 h3
        subst h1
        rcases selFold_mem st cat (q0 :: rest) (none, -1) b hfold with hm | hm
        · exact Option.noConfusion hm
        · exact mem_available_not_asked st cat b (hav ▸ hm)
      next hfold =>
        injection h with h1 h2 h3
        subst h1
        exact mem_available_not_asked st cat q0 (hav ▸ List.mem_cons_self _ _)

/-- A mid-session state whose asked history is `[7]`, used to witness the
amended C9. -/
def c9st : ManagerState :=
  { triangleWeights := [(0, 1/4), (1, 1/4), (2, 1/4), (3, 1/4)]
    theoremWeights := []
    askedQuestions := [7]
    questionsCount := 1 }

/-- A catalog where only question 2 is still available. -/
def c9bcat : Catalog :=
  { questions := [⟨2, "compare the sides", 1, true⟩]
    theorems := []
    tqLinks := []
    multipliers := [] }

/-- Witness for the amended C9: on the concrete state with history `[7]`,
selection returns question 2, and by the theorem its id is not in the
history. -/
theorem select_next_never_repeats_asked_witness :
    selectNextQuestion c9st c9bcat true = .question 2 "compare the sides" 1 ∧
    2 ∉ c9st.askedQuestions := by
  have hsel : selectNextQuestion c9st c9bcat true
      = .question 2 "compare the sides" 1 := by
    have hav : availableQuestions c9st c9bcat
        = [⟨2, "compare the sides", 1, true⟩] := by decide
    rw [selectNextQuestion]
    simp only [Bool.not_true, Bool.false_eq_true, if_false]
    rw [hav]
    have hsc : questionScore c9st c9bcat ⟨2, "compare the sides", 1, true⟩
        > (-1 : ℚ) := by
      show ((1 : Int) : ℚ) > -1
      norm_num
    simp [selStep, hsc]
  exact ⟨hsel, select_next_never_repeats_asked c9st c9bcat true 2
    "compare the sides" 1 hsel⟩

/-- C7: whenever no resume is pending (the resume flag is down or no pending
question is stored), the `/api/question/next` handler reaches
`manager.get_next_question()`; neither `get_next_question` nor
`_store_pending_question` is among the methods `SqlGeometryManager` defines,
so the call raises `AttributeError` and the handler answers 500.  The resume
branch is the only path that can return a question. -/
theorem next_question_endpoint_always_500 (m : Manager)
    (h : m.resumeRequested = false ∨ m.pendingQuestion = none) :
    apiQuestionNext m = (m, .serverError) ∧
    sqlManagerMethods.contains "get_next_question" = false ∧
    sqlManagerMethods.contains "_store_pending_question" = false := by
  refine ⟨?_, by decide, by decide⟩
  obtain ⟨st, pq, rr, sf⟩ := m
  cases rr
  · rfl
  · rcases h with h | h
    · simp at h
    · have hp : pq = none := h
      subst hp
      rfl

/-- Witness for C7: a fresh manager (resume flag down) gets the 500
response. -/
theorem next_question_endpoint_always_500_witness :
    apiQuestionNext (initManager wcat true)
      = (initManager wcat true, .serverError) :=
  (next_question_endpoint_always_500 (initManager wcat true) (.inl rfl)).1

/-- C8: ending a session with the reserved feedback value 7 is a resume: the
session is not persisted, the manager stays in memory with its resume flag
raised and its feedback recorded, and the next `/api/question/next` request
re-issues the stored pending question unchanged while clearing the flag —
leaving the question count, the asked history and both weight vectors exactly
as they were. -/
theorem resume_feedback_preserves_state (m : Manager) (p : PyDict)
    (hp : m.pendingQuestion = some p) :
    ∃ m', endSessionHandler m (some 7) = (some m', false, .resume) ∧
      m'.state = m.state ∧
      m'.pendingQuestion = some p ∧
      m'.resumeRequested = true ∧
      apiQuestionNext m' = ({ m' with resumeRequested := false }, .ok p) ∧
      (apiQuestionNext m').1.state.questionsCount
        = m.state.questionsCount ∧
      (apiQuestionNext m').1.state.askedQuestions
        = m.state.askedQuestions ∧
      (apiQuestionNext m').1.state.triangleWeights
        = m.state.triangleWeights ∧
      (apiQuestionNext m').1.state.theoremWeights
        = m.state.theoremWeights := by
  obtain ⟨st, pq, rr, sf⟩ := m
  have hp' : pq = some p := hp
  subst hp'
  exact ⟨⟨st, some p, true, some 7⟩, rfl, rfl, rfl, rfl, rfl, rfl, rfl, rfl,
    rfl⟩

/-- Witness for C8 at the concrete mid-session manager `c3m`. -/
theorem resume_feedback_preserves_state_witness :
    ∃ m', endSessionHandler c3m (some 7) = (some m', false, .resume) ∧
      m'.state = c3m.state ∧
      m'.pendingQuestion = some (.question 1 "is it right angled" 1) ∧
      m'.resumeRequested = true ∧
      apiQuestionNext m'
        = ({ m' with resumeRequested := false },
           .ok (.question 1 "is it right angled" 1)) ∧
      (apiQuestionNext m').1.state.questionsCount
        = c3m.state.questionsCount ∧
      (apiQuestionNext m').1.state.askedQuestions
        = c3m.state.askedQuestions ∧
      (apiQuestionNext m').1.state.triangleWeights
        = c3m.state.triangleWeights ∧
      (apiQuestionNext m').1.state.theoremWeights
        = c3m.state.theoremWeights :=
  resume_feedback_preserves_state c3m (.question 1 "is it right angled" 1) rfl

/-- The ordering the recommender's output obeys: `a` may precede `b` when
`a` has strictly larger weight, or equal weight and a smaller-or-equal
theorem id. -/
def RecLE (a b : Nat × ℚ) : Prop :=
  b.2 < a.2 ∨ (a.2 = b.2 ∧ a.1 ≤ b.1)

theorem recBefore_iff (a b : Nat × ℚ) : recBefore a b = true ↔ RecLE a b := by
  unfold recBefore RecLE
  simp [Bool.or_eq_true, Bool.and_eq_true]

theorem recLE_total (a b : Nat × ℚ) : RecLE a b ∨ RecLE b a := by
  unfold RecLE
  rcases lt_trichotomy a.2 b.2 with h | h | h
  · exact .inr (.inl h)
  · rcases Nat.le_total a.1 b.1 with h2 | h2
    · exact .inl (.inr ⟨h, h2⟩)
    · exact .inr (.inr ⟨h.symm, h2⟩)
  · exact .inl (.inl h)

theorem recLE_trans (a b c : Nat × ℚ) (h1 : RecLE a b) (h2 : RecLE b c) :
    RecLE a c := by
  unfold RecLE at *
  rcases h1 with h1 | ⟨h1, h1b⟩
  · rcases h2 with h2 | ⟨h2, _⟩
    · exact .inl (h2.trans h1)
    · exact .inl (h2 ▸ h1)
  · rcases h2 with h2 | ⟨h2, h2b⟩
    · exact .inl (h1 ▸ h2)
    · exact .inr ⟨h1.trans h2, h1b.trans h2b⟩

theorem mem_insSorted (p x : Nat × ℚ) (l : List (Nat × ℚ)) :
    x ∈ insSorted p l ↔ x = p ∨ x ∈ l := by
  induction l with
  | nil => simp [insSorted]
  | cons q rest ih =>
      unfold insSorted
      by_cases h : recBefore p q
      · rw [if_pos h]
        exact List.mem_cons
      · rw [if_neg h]
        simp only [List.mem_cons, ih]
        tauto

theorem insSorted_pairwise (p : Nat × ℚ) (l : List (Nat × ℚ))
    (hl : l.Pairwise RecLE) : (insSorted p l).Pairwise RecLE := by
  induction l with
  | nil => simp [insSorted]
  | cons q rest ih =>
      rw [List.pairwise_cons] at hl
      obtain ⟨hq, hrest⟩ := hl
      unfold insSorted
      by_cases h : recBefore p q
      · rw [if_pos h]
        have hpq : RecLE p q := (recBefore_iff p q).mp h
        refine List.Pairwise.cons ?_ (List.Pairwise.cons hq hrest)
        intro x hx
        rcases List.mem_cons.mp hx with hx | hx
        · exact hx ▸ hpq
        · exact recLE_trans p q x hpq (hq x hx)
      · rw [if_neg h]
        have hqp : RecLE q p := by
          rcases recLE_total p q with ht | ht
          · exact absurd ((recBefore_iff p q).mpr ht) h
          · exact ht
        refine List.Pairwise.cons ?_ (ih hrest)
        intro x hx
        rcases (mem_insSorted p x rest).mp hx with hx | hx
        · exact hx ▸ hqp
        · exact hq x hx

theorem sortRec_pairwise (l : List (Nat × ℚ)) :
    (sortRec l).Pairwise RecLE := by
  induction l with
  | nil => exact List.Pairwise.nil
  | cons p rest ih => exact insSorted_pairwise p (sortRec rest) ih

theorem mem_sortRec (x : Nat × ℚ) (l : List (Nat × ℚ)) :
    x ∈ sortRec l ↔ x ∈ l := by
  induction l with
  | nil => simp [sortRec]
  | cons p rest ih =>
      unfold sortRec
      rw [mem_insSorted, ih]
      simp [List.mem_cons, eq_comm]

theorem insSorted_ne_nil (p : Nat × ℚ) (l : List (Nat × ℚ)) :
    insSorted p l ≠ [] := by
  cases l with
  | nil => simp [insSorted]
  | cons q rest =>
      unfold insSorted
      by_cases h : recBefore p q
      · simp [h]
      · simp [h]

theorem maxFold_spec (rest : List (Nat × ℚ)) :
    ∀ (p : Nat × ℚ),
      (rest.foldl (fun best q => if q.2 > best.2 then q else best) p = p ∨
        rest.foldl (fun best q => if q.2 > best.2 then q else best) p ∈ rest) ∧
      p.2 ≤ (rest.foldl (fun best q => if q.2 > best.2 then q else best) p).2 ∧
      ∀ x ∈ rest,
        x.2 ≤ (rest.foldl (fun best q => if q.2 > best.2 then q else best) p).2 := by
  induction rest with
  | nil => exact fun p => ⟨.inl rfl, le_refl _, fun x hx => absurd hx (List.not_mem_nil x)⟩
  | cons q t ih =>
      intro p
      simp only [List.foldl_cons]
      obtain ⟨hmem, hle, hall⟩ := ih (if q.2 > p.2 then q else p)
      have hp' : p.2 ≤ (if q.2 > p.2 then q else p).2 := by
        by_cases hc : q.2 > p.2
        · rw [if_pos hc]; exact le_of_lt hc
        · rw [if_neg hc]
      have hq' : q.2 ≤ (if q.2 > p.2 then q else p).2 := by
        by_cases hc : q.2 > p.2
        · rw [if_pos hc]
        · rw [if_neg hc]; exact le_of_not_lt hc
      refine ⟨?_, hp'.trans hle, ?_⟩
      · rcases hmem with h | h
        · rw [h]
          by_cases hc : q.2 > p.2
          · rw [if_pos hc]
            exact .inr (List.mem_cons_self _ _)
          · rw [if_neg hc]
            exact .inl rfl
        · exact .inr (List.mem_cons_of_mem _ h)
      · intro x hx
        rcases List.mem_cons.mp hx with hx | hx
        · rw [hx]
          exact hq'.trans hle
        · exact hall x hx

theorem sortRec_eq_nil (l : List (Nat × ℚ)) (h : sortRec l = []) : l = [] := by
  cases l with
  | nil => rfl
  | cons p rest =>
      exact absurd h (by simpa [sortRec] using insSorted_ne_nil p (sortRec rest))

theorem recommend_eq_sorted (w : List (Nat × ℚ)) (t : ℚ) (q : Nat × ℚ)
    (rest : List (Nat × ℚ))
    (hsort : sortRec (w.filter (fun p => decide (t ≤ p.2))) = q :: rest) :
    recommend w t = q :: rest := by
  unfold recommend
  rw [hsort]

theorem recommend_eq_fallback (w : List (Nat × ℚ)) (t : ℚ) (a : Nat × ℚ)
    (rest2 : List (Nat × ℚ))
    (hemp : w.filter (fun p => decide (t ≤ p.2)) = []) (hw : w = a :: rest2) :
    recommend w t
      = [rest2.foldl (fun best q => if q.2 > best.2 then q else best) a] := by
  unfold recommend
  rw [hemp, hw]
  simp [sortRec, maxByWeight]

/-- C6 (Modelled from the spec, §4.4 — the recommender implementation
`Geometry_Manager.get_relevant_theorems` is not among the sources, only its
callers): `recommend` returns exactly the theorems whose weight is at or
above the threshold whenever at least one qualifies, its output is ordered
descending by weight with ties broken by ascending theorem id, when none
qualifies it returns the single highest-weighted theorem, and the result is
non-empty whenever the weight table (one entry per active theorem) is
non-empty. -/
theorem recommend_spec (w : List (Nat × ℚ)) (t : ℚ) :
    (w.filter (fun p => decide (t ≤ p.2)) ≠ [] →
      (∀ p, p ∈ recommend w t ↔ p ∈ w ∧ t ≤ p.2)) ∧
    (recommend w t).Pairwise RecLE ∧
    (w.filter (fun p => decide (t ≤ p.2)) = [] → w ≠ [] →
      ∃ m, recommend w t = [m] ∧ m ∈ w ∧ ∀ p ∈ w, p.2 ≤ m.2) ∧
    (w ≠ [] → recommend w t ≠ []) := by
  refine ⟨?_, ?_, ?_, ?_⟩
  · intro hne p
    rcases hsort : sortRec (w.filter (fun p => decide (t ≤ p.2))) with _ | ⟨q, rest⟩
    · exact absurd (sortRec_eq_nil _ hsort) hne
    · rw [recommend_eq_sorted w t q rest hsort, ← hsort, mem_sortRec,
        List.mem_filter]
      simp
  · rcases hsort : sortRec (w.filter (fun p => decide (t ≤ p.2))) with _ | ⟨q, rest⟩
    · rcases hw : w with _ | ⟨a, rest2⟩
      · subst hw
        have h0 : recommend ([] : List (Nat × ℚ)) t = [] := by
          unfold recommend
          simp [sortRec, maxByWeight]
        rw [h0]
        exact List.Pairwise.nil
      · subst hw
        rw [recommend_eq_fallback _ t a rest2 (sortRec_eq_nil _ hsort) rfl]
        simp
    · rw [recommend_eq_sorted w t q rest hsort, ← hsort]
      exact sortRec_pairwise _
  · intro hemp hne
    rcases hw : w with _ | ⟨a, rest2⟩
    · exact absurd hw hne
    · subst hw
      obtain ⟨hmem, hle, hall⟩ := maxFold_spec rest2 a
      refine ⟨rest2.foldl (fun best q => if q.2 > best.2 then q else best) a,
        recommend_eq_fallback _ t a rest2 hemp rfl, ?_, ?_⟩
      · rcases hmem with h | h
        · rw [h]
          exact List.mem_cons_self _ _
        · exact List.mem_cons_of_mem _ h
      · intro p hp
        rcases List.mem_cons.mp hp with hp | hp
        · rw [hp]
          exact hle
        · exact hall p hp
  · intro hne
    rcases hsort : sortRec (w.filter (fun p => decide (t ≤ p.2))) with _ | ⟨q, rest⟩
    · rcases hw : w with _ | ⟨a, rest2⟩
      · exact absurd hw hne
      · subst hw
        rw [recommend_eq_fallback _ t a rest2 (sortRec_eq_nil _ hsort) rfl]
        simp
    · rw [recommend_eq_sorted w t q rest hsort]
      simp

/-- Witness for C6 on the two-theorem weight table [(1, 2), (2, 1)] at
threshold 1: some theorem qualifies, and membership in the output is
equivalent to qualifying. -/
theorem recommend_spec_witness :
    ([((1:Nat), (2:ℚ)), (2, 1)].filter (fun p => decide ((1:ℚ) ≤ p.2)) ≠ []) ∧
    (∀ p, p ∈ recommend [((1:Nat), (2:ℚ)), (2, 1)] 1 ↔
       p ∈ [((1:Nat), (2:ℚ)), (2, 1)] ∧ (1:ℚ) ≤ p.2) :=
  ⟨by decide, (recommend_spec [((1:Nat), (2:ℚ)), (2, 1)] 1).1 (by decide)⟩

theorem lookupD_nonneg (tw : List (Nat × ℚ)) (h : ∀ p ∈ tw, 0 ≤ p.2)
    (tid : Nat) (d : ℚ) (hd : 0 ≤ d) : 0 ≤ lookupD tw tid d := by
  induction tw with
  | nil => exact hd
  | cons p rest ih =>
      obtain ⟨k, v⟩ := p
      unfold lookupD
      by_cases hk : k = tid
      · rw [if_pos hk]
        exact h (k, v) (List.mem_cons_self _ _)
      · rw [if_neg hk]
        exact ih (fun p hp => h p (List.mem_cons_of_mem _ hp))

theorem scoreFold_ge (g : Nat → ℚ) (hg : ∀ tid, 0 ≤ g tid) :
    ∀ (l : List Nat) (a : ℚ), a ≤ l.foldl (fun s tid => s + g tid) a := by
  intro l
  induction l with
  | nil => intro a; exact le_refl a
  | cons x t ih =>
      intro a
      rw [List.foldl_cons]
      calc a ≤ a + g x := le_add_of_nonneg_right (hg x)
        _ ≤ _ := ih (a + g x)

theorem score_ge_difficulty (st : ManagerState) (cat : Catalog) (q : Question)
    (hw : ∀ p ∈ st.theoremWeights, 0 ≤ p.2) :
    (q.difficulty : ℚ) ≤ questionScore st cat q := by
  unfold questionScore
  exact scoreFold_ge (fun tid => lookupD st.theoremWeights tid (1/100) * 10)
    (fun tid => mul_nonneg (lookupD_nonneg _ hw tid _ (by norm_num))
      (by norm_num))
    (linkedTheoremIds cat q.id) (q.difficulty : ℚ)

theorem selLoop_spec (st : ManagerState) (cat : Catalog) :
    ∀ (l : List Question) (b : Question),
      (∀ q ∈ l, b.id < q.id) →
      l.Pairwise (fun a c => a.id < c.id) →
      ∃ b', l.foldl (selStep st cat) (some b, questionScore st cat b)
          = (some b', questionScore st cat b') ∧
        (b' = b ∨ b' ∈ l) ∧
        questionScore st cat b ≤ questionScore st cat b' ∧
        (∀ q ∈ l, questionScore st cat q ≤ questionScore st cat b') ∧
        (questionScore st cat b = questionScore st cat b' → b'.id ≤ b.id) ∧
        (∀ q ∈ l, questionScore st cat q = questionScore st cat b' →
          b'.id ≤ q.id) := by
  intro l
  induction l with
  | nil =>
      intro b _ _
      exact ⟨b, rfl, .inl rfl, le_refl _,
        fun q hq => absurd hq (List.not_mem_nil q),
        fun _ => le_refl _,
        fun q hq => absurd hq (List.not_mem_nil q)⟩
  | cons q t ih =>
      intro b hlt hpw
      rw [List.pairwise_cons] at hpw
      obtain ⟨hqall, hpt⟩ := hpw
      rw [List.foldl_cons]
      by_cases hc : questionScore st cat q > questionScore st cat b
      · have hstep : selStep st cat (some b, questionScore st cat b) q
            = (some q, questionScore st cat q) := by
          unfold selStep
          rw [if_pos hc]
        rw [hstep]
        obtain ⟨b', heq, hmem, hle, hall, htieb, htieall⟩ := ih q hqall hpt
        refine ⟨b', heq, ?_, (le_of_lt hc).trans hle, ?_, ?_, ?_⟩
        · rcases hmem with h | h
          · exact .inr (h ▸ List.mem_cons_self _ _)
          · exact .inr (List.mem_cons_of_mem _ h)
        · intro x hx
          rcases List.mem_cons.mp hx with hx | hx
          · rw [hx]
            exact hle
          · exact hall x hx
        · intro habs
          exact absurd habs (ne_of_lt (lt_of_lt_of_le hc hle))
        · intro x hx
          rcases List.mem_cons.mp hx with hx | hx
          · rw [hx]
            exact htieb
          · exact htieall x hx
      · have hstep : selStep st cat (some b, questionScore st cat b) q
            = (some b, questionScore st cat b) := by
          unfold selStep
          rw [if_neg hc]
        rw [hstep]
        have hbt : ∀ x ∈ t, b.id < x.id :=
          fun x hx => hlt x (List.mem_cons_of_mem _ hx)
        obtain ⟨b', heq, hmem, hle, hall, htieb, htieall⟩ := ih b hbt hpt
        have hqb : questionScore st cat q ≤ questionScore st cat b :=
          le_of_not_lt hc
        refine ⟨b', heq, ?_, hle, ?_, htieb, ?_⟩
        · rcases hmem with h | h
          · exact .inl h
          · exact .inr (List.mem_cons_of_mem _ h)
        · intro x hx
          rcases List.mem_cons.mp hx with hx | hx
          · rw [hx]
            exact hqb.trans hle
          · exact hall x hx
        · intro x hx
          rcases List.mem_cons.mp hx with hx | hx
          · intro hxeq
            rw [hx] at hxeq
            have hbb' : questionScore st cat b = questionScore st cat b' :=
              le_antisymm hle (hxeq ▸ hqb)
            have hidb : b'.id ≤ b.id := htieb hbb'
            exact le_of_lt (lt_of_le_of_lt hidb
              (hlt q (List.mem_cons_self _ _))) |>.trans (le_of_eq (hx ▸ rfl))
          · exact htieall x hx

theorem selectNext_eq (st : ManagerState) (cat : Catalog) (q0 : Question)
    (rest : List Question) (b : Question) (s : ℚ)
    (hav : availableQuestions st cat = q0 :: rest)
    (hfold : (q0 :: rest).foldl (selStep st cat) (none, -1) = (some b, s)) :
    selectNextQuestion st cat true = .question b.id b.text b.difficulty := by
  rw [selectNextQuestion]
  simp only [Bool.not_true, Bool.false_eq_true, if_false]
  split
  next heq => rw [hav] at heq; exact List.noConfusion heq
  next q0' rest' heq =>
      rw [hav] at heq
      injection heq with h1 h2
      subst h1
      subst h2
      split
      next b2 hfold2 =>
        have h3 : ((q0 :: rest).foldl (selStep st cat) (none, -1)).1
            = some b := by rw [hfold]
        rw [hfold2] at h3
        injection h3 with hb
        rw [hb]
      next hfold2 =>
        have h3 : ((q0 :: rest).foldl (selStep st cat) (none, -1)).1
            = some b := by rw [hfold]
        rw [hfold2] at h3
        exact Option.noConfusion h3

/-- C1: for every selection after the first question (non-empty asked
history), from a non-empty candidate set of active, not-yet-asked questions,
`_select_next_question` returns a candidate whose score
`difficulty_level + 10 × Σ theorem_weight` is maximal, and among the
candidates attaining that score the one with the lowest question id.  The
catalog rows are modelled as arriving in ascending primary-key order (the
`Pairwise` hypothesis); difficulty ≥ 1 is the schema `CHECK` constraint and
weight non-negativity is the belief-state invariant — together they make the
first candidate beat the initial `best_score = -1`. -/
theorem next_selection_maximizes_score (st : ManagerState) (cat : Catalog)
    (hasked : st.askedQuestions ≠ [])
    (hsorted : cat.questions.Pairwise (fun a b => a.id < b.id))
    (hdiff : ∀ q ∈ cat.questions, 1 ≤ q.difficulty)
    (hw : ∀ p ∈ st.theoremWeights, 0 ≤ p.2)
    (hne : availableQuestions st cat ≠ []) :
    availableQuestions st cat
      = cat.questions.filter
          (fun q => q.active && !(st.askedQuestions.contains q.id)) ∧
    ∃ b, selectNextQuestion st cat true
        = .question b.id b.text b.difficulty ∧
      b ∈ availableQuestions st cat ∧
      (∀ q ∈ availableQuestions st cat,
        questionScore st cat q ≤ questionScore st cat b) ∧
      (∀ q ∈ availableQuestions st cat,
        questionScore st cat q = questionScore st cat b → b.id ≤ q.id) := by
  have hcand : availableQuestions st cat
      = cat.questions.filter
          (fun q => q.active && !(st.askedQuestions.contains q.id)) := by
    unfold availableQuestions excludedIds
    rw [if_neg hasked]
  refine ⟨hcand, ?_⟩
  obtain ⟨q0, rest, hav⟩ := List.exists_cons_of_ne_nil hne
  have hpav : (availableQuestions st cat).Pairwise (fun a b => a.id < b.id) :=
    hsorted.filter _
  rw [hav, List.pairwise_cons] at hpav
  obtain ⟨hq0all, hprest⟩ := hpav
  have hq0mem : q0 ∈ cat.questions := by
    have : q0 ∈ availableQuestions st cat := hav ▸ List.mem_cons_self _ _
    exact List.mem_of_mem_filter this
  have h1 : (1:ℚ) ≤ (q0.difficulty : ℚ) := by
    exact_mod_cast hdiff q0 hq0mem
  have h2 : (q0.difficulty : ℚ) ≤ questionScore st cat q0 :=
    score_ge_difficulty st cat q0 hw
  have h3 : questionScore st cat q0 > (-1 : ℚ) := by linarith
  obtain ⟨b, heq, hmem, hle, hall, htieb, htieall⟩ :=
    selLoop_spec st cat rest q0 hq0all hprest
  have hfold : (q0 :: rest).foldl (selStep st cat) (none, -1)
      = (some b, questionScore st cat b) := by
    rw [List.foldl_cons]
    have hstep : selStep st cat ((none : Option Question), (-1 : ℚ)) q0
        = (some q0, questionScore st cat q0) := by
      unfold selStep
      rw [if_pos h3]
    rw [hstep, heq]
  refine ⟨b, selectNext_eq st cat q0 rest b _ hav hfold, ?_, ?_, ?_⟩
  · rcases hmem with h | h
    · rw [h, hav]
      exact List.mem_cons_self _ _
    · rw [hav]
      exact List.mem_cons_of_mem _ h
  · intro q hq
    rw [hav] at hq
    rcases List.mem_cons.mp hq with hq | hq
    · rw [hq]
      exact hle
    · exact hall q hq
  · intro q hq
    rw [hav] at hq
    rcases List.mem_cons.mp hq with hq | hq
    · intro hqeq
      rw [hq] at hqeq ⊢
      exact htieb hqeq
    · exact htieall q hq

/-- A mid-session state for the C1 witness: question 3 asked, theorem 1 at
weight 1. -/
def c1st : ManagerState :=
  { triangleWeights := [(0, 1), (1, 1), (2, 1), (3, 1)]
    theoremWeights := [(1, 1)]
    askedQuestions := [3]
    questionsCount := 1 }

/-- A two-question catalog, ids ascending, for the C1 witness. -/
def c1cat : Catalog :=
  { questions := [⟨1, "which sides are equal", 1, true⟩,
                  ⟨2, "compute the third angle", 2, true⟩]
    theorems := [⟨1, "base angles are equal", none, true⟩]
    tqLinks := [⟨1, 2⟩]
    multipliers := [] }

/-- Witness for C1: all hypotheses hold at the concrete state `c1st` and
catalog `c1cat`, and the selection is a maximal-score, lowest-id-on-ties
candidate there. -/
theorem next_selection_maximizes_score_witness :
    (c1st.askedQuestions ≠ [] ∧
     c1cat.questions.Pairwise (fun a b => a.id < b.id) ∧
     (∀ q ∈ c1cat.questions, 1 ≤ q.difficulty) ∧
     (∀ p ∈ c1st.theoremWeights, 0 ≤ p.2) ∧
     availableQuestions c1st c1cat ≠ []) ∧
    (availableQuestions c1st c1cat
      = c1cat.questions.filter
          (fun q => q.active && !(c1st.askedQuestions.contains q.id)) ∧
     ∃ b, selectNextQuestion c1st c1cat true
        = .question b.id b.text b.difficulty ∧
      b ∈ availableQuestions c1st c1cat ∧
      (∀ q ∈ availableQuestions c1st c1cat,
        questionScore c1st c1cat q ≤ questionScore c1st c1cat b) ∧
      (∀ q ∈ availableQuestions c1st c1cat,
        questionScore c1st c1cat q = questionScore c1st c1cat b →
          b.id ≤ q.id)) :=
  ⟨⟨by decide, by decide, by decide, by decide, by decide⟩,
   next_selection_maximizes_score c1st c1cat (by decide) (by decide)
     (by decide) (by decide) (by decide)⟩

end Geo
